import Mathlib

/-!
Verification of the OneRunComfyUI installer script.

The script is a sequential installer: it resolves external tools (curl, 7zip,
git), downloads and extracts the main ComfyUI archive, clones custom-node
repositories and fetches model files.  We embed it shallowly: the filesystem
is a list of existing path strings, the current working directory is an
explicit string, and every external outcome (network success, subprocess
success, archive contents, API responses) is supplied by an `Env` record of
oracles.  Runs additionally produce a trace of observable events (network
accesses, extractor invocations) so that claims about "no network access" or
"extraction never invoked" can be stated.
-/

namespace OneRun

/-- Observable external events of a run: a network access, an archive
extraction, or a repository clone. -/
inductive Ev where
  | net (url : String)
  | extract (file : String)
  | clone (url : String)
deriving DecidableEq

/-- Characters after the last '/' of a character list; this is Python's
`s.split('/')[-1]` (the whole string when no '/' occurs, empty when the
string ends with '/'). -/
def lastSeg (l : List Char) : List Char :=
  l.foldl (fun acc c => if c == '/' then [] else acc ++ [c]) []

/-- Boolean list-prefix test. -/
def isPreOf : List Char → List Char → Bool
  | [], _ => true
  | _ :: _, [] => false
  | p :: ps, c :: cs => p == c && isPreOf ps cs

/-- Strip a pattern from the front of a list, returning the remainder. -/
def stripPre : List Char → List Char → Option (List Char)
  | [], l => some l
  | _ :: _, [] => none
  | p :: ps, c :: cs => if p == c then stripPre ps cs else none

/-- Does `pat` occur as a contiguous run anywhere in the list?  This is
Python's `pat in s`. -/
def occursIn (pat : List Char) : List Char → Bool
  | [] => isPreOf pat []
  | c :: cs => isPreOf pat (c :: cs) || occursIn pat cs

/-- Boolean list-suffix test, Python's `s.endswith(pat)`. -/
def isSufOf (pat l : List Char) : Bool := isPreOf pat.reverse l.reverse

/-- One pass of Python's `s.replace(pat, '')` for the nonempty pattern
`p :: ps`: scan left to right, consume the pattern wherever it matches,
otherwise keep the character.  `fuel` makes the recursion structural; the
callers always supply enough fuel. -/
def removeA (p : Char) (ps : List Char) : Nat → List Char → List Char
  | 0, _ => []
  | _ + 1, [] => []
  | f + 1, c :: cs =>
    if c == p then
      match stripPre ps cs with
      | some rest => removeA p ps f rest
      | none => c :: removeA p ps f cs
    else c :: removeA p ps f cs

/-- Python's `s.replace(p :: ps, '')`. -/
def removeAll (p : Char) (ps : List Char) (l : List Char) : List Char :=
  removeA p ps l.length l

/-- `repo_name = url.split('/')[-1].replace('.git', '')` from
`download_custom_nodes`. -/
def repoName (url : String) : String :=
  String.mk (removeAll '.' ['g', 'i', 't'] (lastSeg url.data))

/-- The filesystem is the list of paths that currently exist. -/
abbrev FS := List String

/-- `os.path.exists`. -/
def pexists : FS → String → Bool
  | [], _ => false
  | q :: fs, p => q == p || pexists fs p

/-- Create a path (idempotent). -/
def addP (fs : FS) (p : String) : FS := if pexists fs p then fs else fs ++ [p]

/-- Create a list of paths. -/
def addAll (fs : FS) (l : List String) : FS := l.foldl addP fs

/-- `os.remove`. -/
def rmP (fs : FS) (p : String) : FS := fs.filter (fun q => q != p)

/-- `shutil.rmtree`: remove a directory and everything below it. -/
def rmTree (fs : FS) (p : String) : FS :=
  fs.filter (fun q => !(q == p || isPreOf (p.data ++ ['/']) q.data))

/-- `os.path.join` with the separator used throughout the script. -/
def pjoin (a b : String) : String := a ++ "/" ++ b

/-- All external outcomes a run can observe, supplied as oracles:
whether the system tools respond, whether each URL downloads, what the
release APIs answer, the size a fetched file ends up with, whether each
extraction and each clone succeeds, and which entries an extraction
produces. -/
structure Env where
  sysCurlOk : Bool
  sysGitOk : Bool
  dlOk : String → Bool
  curlExtractOk : Bool
  curlEntries : List String
  comfyApi : Option (List (String × String))
  fetchOk : String → Bool
  sizeOf : String → Nat
  extract7zOk : Bool
  gitApi : Option (List (String × String))
  gitExtractOk : Bool
  gitEntries : List String
  cloneOk : String → Bool

/-- One entry of the `models` configuration list. -/
structure ModelSpec where
  url : String
  filename : String
  directory : String
deriving DecidableEq

/-- Process state: the filesystem plus the current working directory. -/
structure St where
  fs : FS
  cwd : String
deriving DecidableEq

/-- `download_file(url, filepath)`: skip when the destination exists,
otherwise retrieve the URL; returns success, the new filesystem and the
events performed. -/
def downloadFile (env : Env) (url filepath : String) (fs : FS) :
    Bool × FS × List Ev :=
  if pexists fs filepath then (true, fs, [])
  else if env.dlOk url then (true, addP fs filepath, [Ev.net url])
  else (false, fs, [Ev.net url])

example :
    downloadFile ⟨true, true, fun _ => true, true, [], none, fun _ => true,
      fun _ => 0, true, none, true, [], fun _ => true⟩ "u" "f" ["f"] =
    (true, ["f"], []) := by decide

example : repoName "https://github.com/ltdrdata/ComfyUI-Manager.git" =
    "ComfyUI-Manager" := by decide

example : repoName "https://e.com/a.github.io" = "ahub.io" := by decide

def curlZipUrl : String :=
  "https://curl.se/windows/dl-8.15.0_4/curl-8.15.0_4-win64-mingw.zip"

def curlZipName : String := "curl-8.15.0_4-win64-mingw.zip"

def sevenZipUrl : String := "https://www.7-zip.org/a/7zr.exe"

def comfyApiUrl : String :=
  "https://api.github.com/repos/comfyanonymous/ComfyUI/releases/latest"

def gitApiUrl : String :=
  "https://api.github.com/repos/git-for-windows/git/releases/latest"

/-- First path in the filesystem whose final component is `curl.exe`;
this is the `os.walk` search of `setup_curl`. -/
def findCurlExe (fs : FS) : Option String :=
  fs.find? (fun p => lastSeg p.data == "curl.exe".data)

/-- First segment of a path (the `os.listdir` item owning it). -/
def firstSeg : List Char → List Char
  | [] => []
  | c :: cs => if c == '/' then [] else c :: firstSeg cs

/-- Is `d` a directory, i.e. does some existing path live strictly below
it? -/
def isDirIn (fs : FS) (d : String) : Bool :=
  fs.any (fun q => isPreOf (d.data ++ ['/']) q.data)

/-- The cleanup block of `setup_curl`: delete the downloaded zip, then every
top-level directory whose lowercased name contains "curl". -/
def curlCleanup (fs : FS) : FS :=
  let fs1 := rmP fs curlZipName
  fs1.filter (fun q =>
    let d := String.mk (firstSeg q.data)
    !(occursIn "curl".data (d.data.map Char.toLower) && isDirIn fs1 d))

/-- `setup_curl`: probe system curl, else reuse a cached `curl.exe`, else
download the curl zip, extract it, locate `curl.exe` in the tree, move it to
the current directory and clean up.  Returns the tool handle (`none` on
failure), the filesystem, and the events performed. -/
def setupCurl (env : Env) (fs : FS) : Option String × FS × List Ev :=
  if env.sysCurlOk then (some "curl", fs, [])
  else if pexists fs "curl.exe" then (some "curl.exe", fs, [])
  else
    match downloadFile env curlZipUrl curlZipName fs with
    | (false, fs1, evs) => (none, fs1, evs)
    | (true, fs1, evs) =>
      if env.curlExtractOk then
        let fs2 := addAll fs1 env.curlEntries
        let evs2 := evs ++ [Ev.extract curlZipName]
        match findCurlExe fs2 with
        | some p =>
          let fs3 := addP (rmP fs2 p) "curl.exe"
          let fs4 := curlCleanup fs3
          if pexists fs4 "curl.exe" then (some "curl.exe", fs4, evs2)
          else (none, fs4, evs2)
        | none => (none, curlCleanup fs2, evs2)
      else (none, fs1, evs ++ [Ev.extract curlZipName])

/-- `download_7zip`: fetch `7zr.exe` via `download_file`. -/
def download7zip (env : Env) (fs : FS) : Option String × FS × List Ev :=
  match downloadFile env sevenZipUrl "7zr.exe" fs with
  | (true, fs1, evs) => (some "7zr.exe", fs1, evs)
  | (false, fs1, evs) => (none, fs1, evs)

def gitPortableBin : String := "git_portable/bin/git.exe"

/-- The asset filter of `setup_git`: name contains "PortableGit" and
"64-bit" and ends with ".7z.exe". -/
def findGitAsset (assets : List (String × String)) : Option (String × String) :=
  assets.find? (fun a =>
    occursIn "PortableGit".data a.1.data &&
    occursIn "64-bit".data a.1.data &&
    isSufOf ".7z.exe".data a.1.data)

/-- `setup_git`: probe system git, else reuse the cached portable git, else
query the release API, download the matching self-extracting installer,
extract it into `git_portable`, and delete the installer on success. -/
def setupGit (env : Env) (fs : FS) : Option String × FS :=
  if env.sysGitOk then (some "git", fs)
  else if pexists fs gitPortableBin then (some gitPortableBin, fs)
  else
    match env.gitApi with
    | none => (none, fs)
    | some assets =>
      match findGitAsset assets with
      | none => (none, fs)
      | some (fname, url) =>
        match downloadFile env url fname fs with
        | (false, fs1, _) => (none, fs1)
        | (true, fs1, _) =>
          if env.gitExtractOk then
            let fs2 := addAll fs1 env.gitEntries
            if pexists fs2 gitPortableBin then (some gitPortableBin, rmP fs2 fname)
            else (none, fs2)
          else (none, fs1)

/-- The main-archive asset filter of `install_comfyui`: first asset whose
name ends with ".7z". -/
def findSevenZ (assets : List (String × String)) : Option (String × String) :=
  assets.find? (fun a => isSufOf ['.', '7', 'z'] a.1.data)

def minArchiveSize : Nat := 1048576

/-- The `except` cleanup block of `install_comfyui`: best-effort removal of
`7zr.exe` and `curl.exe`. -/
def cleanupExcept (fs : FS) : FS :=
  let fs1 := if pexists fs "7zr.exe" then rmP fs "7zr.exe" else fs
  if pexists fs1 "curl.exe" then rmP fs1 "curl.exe" else fs1

/-- The success cleanup block of `install_comfyui`: remove the archive, then
`7zr.exe`, then `curl.exe` if present; a missing file aborts the remaining
removals (the exception is swallowed). -/
def cleanupSuccess (n : String) (fs : FS) : FS :=
  if pexists fs n then
    let fs1 := rmP fs n
    if pexists fs1 "7zr.exe" then
      let fs2 := rmP fs1 "7zr.exe"
      if pexists fs2 "curl.exe" then rmP fs2 "curl.exe" else fs2
    else fs1
  else fs

/-- `install_comfyui`: skip when already installed; set up curl and 7zip
(each fatal on failure); query the release API; download the first `.7z`
asset; fail and delete the file when it is smaller than `minArchiveSize`;
otherwise extract it and clean up; exceptions run the `except` cleanup. -/
def installComfyui (env : Env) (fs : FS) : Bool × FS × List Ev :=
  if pexists fs "ComfyUI_windows_portable" then (true, fs, [])
  else
    let c := setupCurl env fs
    match c.1 with
    | none => (false, c.2.1, c.2.2)
    | some _curlExe =>
      let z := download7zip env c.2.1
      match z.1 with
      | none => (false, z.2.1, c.2.2 ++ z.2.2)
      | some _zipExe =>
        let evs0 := c.2.2 ++ z.2.2 ++ [Ev.net comfyApiUrl]
        match env.comfyApi with
        | none => (false, cleanupExcept z.2.1, evs0)
        | some assets =>
          match findSevenZ assets with
          | none => (false, z.2.1, evs0)
          | some (n, u) =>
            let evs1 := evs0 ++ [Ev.net u]
            if env.fetchOk u then
              let fs3 := addP z.2.1 n
              if env.sizeOf n < minArchiveSize then
                (false, rmP fs3 n, evs1)
              else
                let evs2 := evs1 ++ [Ev.extract n]
                if env.extract7zOk then
                  (true, cleanupSuccess n (addP fs3 "ComfyUI_windows_portable"),
                    evs2)
                else (false, cleanupExcept fs3, evs2)
            else (false, cleanupExcept z.2.1, evs1)

def customNodesDir : String := "ComfyUI_windows_portable/ComfyUI/custom_nodes"

/-- `Path(custom_nodes_dir).mkdir(parents=True, exist_ok=True)`. -/
def mkdirCustomNodes (fs : FS) : FS :=
  addAll fs ["ComfyUI_windows_portable", "ComfyUI_windows_portable/ComfyUI",
    customNodesDir]

/-- One iteration of the clone loop of `download_custom_nodes`: skip and
count repositories whose directory exists; otherwise change into the
custom-nodes directory, clone (counting on success), and return to the
original directory on every path. -/
def cloneStep (env : Env) (orig : String) (acc : Nat × St) (url : String) :
    Nat × St :=
  let name := repoName url
  let rpath := pjoin customNodesDir name
  if pexists acc.2.fs rpath then (acc.1 + 1, acc.2)
  else
    let stIn : St := ⟨acc.2.fs, pjoin orig customNodesDir⟩
    if env.cloneOk url then (acc.1 + 1, ⟨addP stIn.fs rpath, orig⟩)
    else (acc.1, ⟨stIn.fs, orig⟩)

/-- `download_custom_nodes`: make the target directory, set up git (failure
returns `False`), clone each URL in order, then remove the portable git if
it was freshly acquired; returns whether every spec succeeded. -/
def downloadCustomNodes (env : Env) (urls : List String) (st : St) :
    Bool × St :=
  let fs0 := mkdirCustomNodes st.fs
  match setupGit env fs0 with
  | (none, fs1) => (false, ⟨fs1, st.cwd⟩)
  | (some gitExe, fs1) =>
    let orig := st.cwd
    let r := urls.foldl (cloneStep env orig) (0, ⟨fs1, orig⟩)
    let s2 : St :=
      if gitExe != "git" && pexists r.2.fs "git_portable" then
        ⟨rmTree r.2.fs "git_portable", r.2.cwd⟩
      else r.2
    (r.1 == urls.length, s2)

def modelsRoot : String := "ComfyUI_windows_portable/ComfyUI/models"

def checkpointsDir : String :=
  "ComfyUI_windows_portable/ComfyUI/models/checkpoints"

def upscaleDir : String :=
  "ComfyUI_windows_portable/ComfyUI/models/upscale_models"

/-- The directories `download_models` creates up front. -/
def modelDirList : List String :=
  ["ComfyUI_windows_portable", "ComfyUI_windows_portable/ComfyUI",
    modelsRoot, checkpointsDir, upscaleDir]

def mkdirModels (fs : FS) : FS := addAll fs modelDirList

/-- `directory_mapping.get(model["directory"], model["directory"])`. -/
def resolveDir (m : ModelSpec) : String :=
  if m.directory == "checkpoints_dir" then checkpointsDir
  else if m.directory == "upscale_dir" then upscaleDir
  else m.directory

/-- One iteration of the model loop: resolve the directory, join the
filename and delegate to `download_file`, counting successes. -/
def modelStep (env : Env) (acc : Nat × FS × List Ev) (m : ModelSpec) :
    Nat × FS × List Ev :=
  let fp := pjoin (resolveDir m) m.filename
  match downloadFile env m.url fp acc.2.1 with
  | (ok, fs1, evs) =>
    (acc.1 + (if ok then 1 else 0), fs1, acc.2.2 ++ evs)

/-- The counting run of `download_models`. -/
def downloadModelsRun (env : Env) (fs : FS) (models : List ModelSpec) :
    Nat × FS × List Ev :=
  models.foldl (modelStep env) (0, mkdirModels fs, [])

/-- `download_models`: create the two known directories, fetch every model,
and report whether every spec succeeded. -/
def downloadModels (env : Env) (fs : FS) (models : List ModelSpec) :
    Bool × FS × List Ev :=
  let r := downloadModelsRun env fs models
  (r.1 == models.length, r.2)

/-- The hard-coded custom-node list of `main`. -/
def mainUrls : List String := ["https://github.com/ltdrdata/ComfyUI-Manager"]

/-- The hard-coded model list of `main` (all entries are commented out). -/
def mainModels : List ModelSpec := []

/-- `main`: install ComfyUI, exiting with code 1 before any other stage when
it fails; otherwise run the custom-node stage and the model stage (their
failures are only warnings) and finish with code 0.  Returns the exit code,
whether each later stage ran, and the final state. -/
def mainRun (env : Env) (st : St) : Nat × Bool × Bool × St :=
  let r := installComfyui env st.fs
  if r.1 then
    let r2 := downloadCustomNodes env mainUrls ⟨r.2.1, st.cwd⟩
    let r3 := downloadModels env r2.2.fs mainModels
    (0, true, true, ⟨r3.2.1, r2.2.cwd⟩)
  else (1, false, false, ⟨r.2.1, st.cwd⟩)

/-- Modelled from the spec: "Repository name is derived deterministically
from the URL's final path segment with a version-control suffix stripped" —
the claim-side derivation that strips one `.git` suffix and alters nothing
else. -/
def specDerivedName (url : String) : String :=
  let seg := lastSeg url.data
  if isSufOf ['.', 'g', 'i', 't'] seg then
    String.mk (seg.take (seg.length - 4))
  else String.mk seg

example : specDerivedName "https://e.com/a.github.io" = "a.github.io" := by
  decide

/-- An environment in which every external interaction succeeds. -/
def envAllOk : Env :=
  ⟨true, true, fun _ => true, true, [],
    some [("ComfyUI-1.7z", "http://a/c.7z")], fun _ => true,
    fun _ => 2000000, true,
    some [("PortableGit-64-bit.7z.exe", "http://g/p.7z.exe")], true,
    ["git_portable", "git_portable/bin", "git_portable/bin/git.exe"],
    fun _ => true⟩

/-- An environment in which every external interaction fails. -/
def envAllFail : Env :=
  ⟨false, false, fun _ => false, false, [], none, fun _ => false,
    fun _ => 0, false, none, false, [], fun _ => false⟩

/-- An environment in which exactly one clone URL fails. -/
def envIsol : Env :=
  ⟨true, true, fun _ => true, true, [],
    some [("ComfyUI-1.7z", "http://a/c.7z")], fun _ => true,
    fun _ => 2000000, true, none, true, [],
    fun u => u != "https://h/c"⟩

/-- An environment whose release metadata holds no ".7z" asset, while curl
is acquired by a fresh download (no system curl). -/
def envNoAsset : Env :=
  ⟨false, true, fun _ => true, true,
    ["curl-dist", "curl-dist/bin", "curl-dist/bin/curl.exe"],
    some [("x.zip", "hu")], fun _ => true, fun _ => 0, true, none, true, [],
    fun _ => true⟩

/-- An environment with no system git and an unreachable git release API. -/
def envGitFail : Env :=
  ⟨true, false, fun _ => true, true, [], none, fun _ => true, fun _ => 0,
    true, none, true, [], fun _ => true⟩

/-- An environment with no system curl (curl is freshly downloaded and
extracted) whose fetched main archive ends up undersized. -/
def envTinyFresh : Env :=
  ⟨false, true, fun _ => true, true,
    ["curl-dist", "curl-dist/bin", "curl-dist/bin/curl.exe"],
    some [("ComfyUI-1.7z", "http://a/c.7z")], fun _ => true, fun _ => 0,
    true, none, true, [], fun _ => true⟩

section Lemmas

theorem pexists_append (fs1 fs2 : FS) (p : String) :
    pexists (fs1 ++ fs2) p = (pexists fs1 p || pexists fs2 p) := by
  induction fs1 with
  | nil => simp [pexists]
  | cons q fs ih => simp [pexists, ih, Bool.or_assoc]

theorem pexists_addP_self (fs : FS) (p : String) :
    pexists (addP fs p) p = true := by
  unfold addP
  split
  · assumption
  · rw [pexists_append]
    simp [pexists]

theorem pexists_addP_of_ne {p q : String} (fs : FS) (hne : p ≠ q) :
    pexists (addP fs q) p = pexists fs p := by
  unfold addP
  split
  · rfl
  · rw [pexists_append]
    simp [pexists, beq_iff_eq, Ne.symm hne]

theorem pexists_addP_mono {fs : FS} {p : String} (q : String)
    (h : pexists fs p = true) : pexists (addP fs q) p = true := by
  unfold addP
  split
  · exact h
  · rw [pexists_append, h]
    rfl

theorem pexists_filter (f : String → Bool) (fs : FS) (p : String) :
    pexists (fs.filter f) p = (f p && pexists fs p) := by
  induction fs with
  | nil => simp [pexists]
  | cons q fs ih =>
    rw [List.filter_cons]
    by_cases h : q = p
    · subst h
      cases hf : f q
      · simp [hf, pexists, ih]
      · simp [hf, pexists, ih]
    · have hqp : (q == p) = false := by simp [beq_iff_eq, h]
      cases hf : f q
      · simp [hf, pexists, ih, hqp]
      · simp [hf, pexists, ih, hqp]

theorem pexists_rmP (fs : FS) (p x : String) :
    pexists (rmP fs p) x = ((x != p) && pexists fs x) :=
  pexists_filter (fun q => q != p) fs x

theorem pexists_rmP_self (fs : FS) (p : String) :
    pexists (rmP fs p) p = false := by
  simp [pexists_rmP]

theorem pexists_rmP_of_ne {p q : String} (fs : FS) (hne : p ≠ q) :
    pexists (rmP fs q) p = pexists fs p := by
  simp [pexists_rmP, bne, beq_iff_eq, hne]

theorem pexists_filter_absent {f : String → Bool} {fs : FS} {p : String}
    (h : pexists fs p = false) : pexists (fs.filter f) p = false := by
  rw [pexists_filter, h]
  simp

theorem pexists_addAll_mono {fs : FS} {p : String} (l : List String)
    (h : pexists fs p = true) : pexists (addAll fs l) p = true := by
  induction l generalizing fs with
  | nil => exact h
  | cons q l ih => exact ih (pexists_addP_mono q h)

theorem pexists_addAll_of_ne {p : String} (l : List String) (fs : FS)
    (h : ∀ q ∈ l, p ≠ q) : pexists (addAll fs l) p = pexists fs p := by
  induction l generalizing fs with
  | nil => rfl
  | cons q l ih =>
    have := ih (addP fs q) (fun r hr => h r (List.mem_cons_of_mem q hr))
    rw [addAll, List.foldl_cons]
    rw [addAll] at this
    rw [this, pexists_addP_of_ne fs (h q (List.mem_cons_self q l))]

theorem pexists_false_of_find?_none {f : String → Bool} {fs : FS}
    {p : String} (h : fs.find? f = none) (hp : f p = true) :
    pexists fs p = false := by
  induction fs with
  | nil => rfl
  | cons q fs ih =>
    cases hq : f q
    · rw [List.find?_cons_of_neg _ (by simp [hq])] at h
      have hqp : (q == p) = false := by
        by_cases hqe : q = p
        · rw [hqe, hp] at hq
          exact absurd hq (by simp)
        · simp [beq_iff_eq, hqe]
      simp [pexists, hqp, ih h]
    · rw [List.find?_cons_of_pos _ (by simp [hq])] at h
      exact absurd h (by simp)

theorem downloadFile_cases (env : Env) (url fp : String) (fs : FS) :
    downloadFile env url fp fs = (true, fs, []) ∨
    downloadFile env url fp fs = (true, addP fs fp, [Ev.net url]) ∨
    downloadFile env url fp fs = (false, fs, [Ev.net url]) := by
  unfold downloadFile
  split
  · exact Or.inl rfl
  · split
    · exact Or.inr (Or.inl rfl)
    · exact Or.inr (Or.inr rfl)

theorem downloadFile_false_fs {env : Env} {url fp : String} {fs : FS}
    {r : Bool × FS × List Ev} (h : downloadFile env url fp fs = r)
    (hf : r.1 = false) : r.2.1 = fs := by
  rcases downloadFile_cases env url fp fs with hc | hc | hc <;>
    rw [hc] at h <;> subst h
  · exact absurd hf (by simp)
  · exact absurd hf (by simp)
  · rfl

theorem downloadFile_true_mem {env : Env} {url fp : String} {fs : FS}
    {r : Bool × FS × List Ev} (h : downloadFile env url fp fs = r)
    (ht : r.1 = true) : pexists r.2.1 fp = true := by
  rcases downloadFile_cases env url fp fs with hc | hc | hc <;>
    rw [hc] at h <;> subst h
  · unfold downloadFile at hc
    split at hc
    · next hex => exact hex
    · split at hc
      · exact absurd (congrArg (fun t => t.2.2) hc) (by simp)
      · exact absurd (congrArg (fun t => t.1) hc) (by simp)
  · exact pexists_addP_self fs fp
  · exact absurd ht (by simp)

theorem downloadFile_absent {env : Env} {url fp p : String} {fs : FS}
    {r : Bool × FS × List Ev} (h : downloadFile env url fp fs = r)
    (hp : pexists fs p = false) (hne : p ≠ fp) : pexists r.2.1 p = false := by
  rcases downloadFile_cases env url fp fs with hc | hc | hc <;>
    rw [hc] at h <;> subst h
  · exact hp
  · rw [pexists_addP_of_ne fs hne]
    exact hp
  · exact hp

theorem curlCleanup_absent {fs : FS} {p : String}
    (h : pexists fs p = false) : pexists (curlCleanup fs) p = false := by
  unfold curlCleanup
  apply pexists_filter_absent
  rw [pexists_rmP, h]
  simp

theorem bool_not_eq_true {b : Bool} (h : ¬ b = true) : b = false := by
  cases b
  · rfl
  · exact absurd rfl h

theorem setupCurl_none_no_cache (env : Env) (fs : FS)
    (h : (setupCurl env fs).1 = none) :
    pexists (setupCurl env fs).2.1 "curl.exe" = false := by
  rcases hc : setupCurl env fs with ⟨o, fs2, evs⟩
  rw [hc] at h
  simp only at h ⊢
  unfold setupCurl at hc
  split at hc
  · injection hc with h1 _
    rw [← h1] at h
    exact absurd h (by simp)
  · split at hc
    · injection hc with h1 _
      rw [← h1] at h
      exact absurd h (by simp)
    · next hnc =>
      have hnc' : pexists fs "curl.exe" = false := bool_not_eq_true hnc
      split at hc
      · next fs1 evs1 heq =>
        injection hc with _ h2
        injection h2 with h2 _
        rw [← h2]
        rw [show fs1 = fs from downloadFile_false_fs heq rfl]
        exact hnc'
      · next fs1 evs1 heq =>
        split at hc
        · dsimp only at hc
          split at hc
          · split at hc
            · injection hc with h1 _
              rw [← h1] at h
              exact absurd h (by simp)
            · next hne4 =>
              injection hc with _ h2
              injection h2 with h2 _
              rw [← h2]
              exact bool_not_eq_true hne4
          · next hfind =>
            injection hc with _ h2
            injection h2 with h2 _
            rw [← h2]
            apply curlCleanup_absent
            apply pexists_false_of_find?_none hfind
            decide
        · injection hc with _ h2
          injection h2 with h2 _
          rw [← h2]
          exact downloadFile_absent heq hnc' (by decide)

theorem setupGit_none_no_cache (env : Env) (fs : FS)
    (h : (setupGit env fs).1 = none) :
    pexists (setupGit env fs).2 gitPortableBin = false := by
  rcases hc : setupGit env fs with ⟨o, fs2⟩
  rw [hc] at h
  simp only at h ⊢
  unfold setupGit at hc
  split at hc
  · injection hc with h1 _
    rw [← h1] at h
    exact absurd h (by simp)
  · split at hc
    · injection hc with h1 _
      rw [← h1] at h
      exact absurd h (by simp)
    · next hnb =>
      have hnb' : pexists fs gitPortableBin = false := bool_not_eq_true hnb
      split at hc
      · injection hc with _ h2
        rw [← h2]
        exact hnb'
      · split at hc
        · injection hc with _ h2
          rw [← h2]
          exact hnb'
        · next fname url hfind =>
          split at hc
          · next fs1 evs1 heq =>
            injection hc with _ h2
            rw [← h2]
            rw [show fs1 = fs from downloadFile_false_fs heq rfl]
            exact hnb'
          · next fs1 evs1 heq =>
            split at hc
            · dsimp only at hc
              split at hc
              · injection hc with h1 _
                rw [← h1] at h
                exact absurd h (by simp)
              · next hnb2 =>
                injection hc with _ h2
                rw [← h2]
                exact bool_not_eq_true hnb2
            · injection hc with _ h2
              rw [← h2]
              have hsuf : isSufOf ".7z.exe".data fname.data = true := by
                unfold findGitAsset at hfind
                have hfa := List.find?_some hfind
                simp only [Bool.and_eq_true] at hfa
                exact hfa.2
              have hne : gitPortableBin ≠ fname := by
                intro he
                rw [← he] at hsuf
                exact absurd hsuf (by decide)
              exact downloadFile_absent heq hnb' hne

theorem string_data_inj {x y : String} (h : x.data = y.data) : x = y := by
  cases x
  cases y
  exact congrArg String.mk h

theorem pjoin_right_inj {d x y : String} (h : pjoin d x = pjoin d y) :
    x = y := by
  unfold pjoin at h
  have hd := congrArg String.data h
  simp only [String.data_append] at hd
  exact string_data_inj (List.append_cancel_left hd)

theorem cloneStep_cwd (env : Env) (orig : String) (acc : Nat × St)
    (url : String) (h : acc.2.cwd = orig) :
    (cloneStep env orig acc url).2.cwd = orig := by
  unfold cloneStep
  cases hex : pexists acc.2.fs (pjoin customNodesDir (repoName url)) <;>
    cases hok : env.cloneOk url <;> simp [hex, hok, h]

theorem foldl_cloneStep_cwd (env : Env) (orig : String) (urls : List String)
    (acc : Nat × St) (h : acc.2.cwd = orig) :
    (urls.foldl (cloneStep env orig) acc).2.cwd = orig := by
  induction urls generalizing acc with
  | nil => exact h
  | cons u urls ih => exact ih _ (cloneStep_cwd env orig acc u h)

theorem cloneStep_skip (env : Env) (orig : String) (acc : Nat × St)
    (url : String)
    (h : pexists acc.2.fs (pjoin customNodesDir (repoName url)) = true) :
    cloneStep env orig acc url = (acc.1 + 1, acc.2) := by
  unfold cloneStep
  simp [h]

theorem cloneStep_fail (env : Env) (orig : String) (acc : Nat × St)
    (url : String)
    (habs : pexists acc.2.fs (pjoin customNodesDir (repoName url)) = false)
    (hf : env.cloneOk url = false) :
    cloneStep env orig acc url = (acc.1, ⟨acc.2.fs, orig⟩) := by
  unfold cloneStep
  simp [habs, hf]

theorem foldl_cloneStep_count (env : Env) (orig : String)
    (urls : List String) (acc : Nat × St)
    (h : ∀ u ∈ urls, env.cloneOk u = true) :
    (urls.foldl (cloneStep env orig) acc).1 = acc.1 + urls.length := by
  induction urls generalizing acc with
  | nil => simp
  | cons u urls ih =>
    rw [List.foldl_cons,
      ih _ (fun v hv => h v (List.mem_cons_of_mem u hv))]
    have hstep : (cloneStep env orig acc u).1 = acc.1 + 1 := by
      unfold cloneStep
      cases hex : pexists acc.2.fs (pjoin customNodesDir (repoName u)) <;>
        simp [hex, h u (List.mem_cons_self u urls)]
    rw [hstep]
    simp [List.length_cons]
    omega

theorem cloneStep_absent (env : Env) (orig : String) (acc : Nat × St)
    (url p : String) (hp : pexists acc.2.fs p = false)
    (hne : p ≠ pjoin customNodesDir (repoName url)) :
    pexists (cloneStep env orig acc url).2.fs p = false := by
  unfold cloneStep
  cases hex : pexists acc.2.fs (pjoin customNodesDir (repoName url)) <;>
    cases hok : env.cloneOk url <;>
    simp [hex, hok, hp, pexists_addP_of_ne _ hne]

theorem foldl_cloneStep_absent (env : Env) (orig : String)
    (urls : List String) (acc : Nat × St) (p : String)
    (hp : pexists acc.2.fs p = false)
    (hne : ∀ u ∈ urls, p ≠ pjoin customNodesDir (repoName u)) :
    pexists ((urls.foldl (cloneStep env orig) acc)).2.fs p = false := by
  induction urls generalizing acc with
  | nil => exact hp
  | cons u urls ih =>
    exact ih _
      (cloneStep_absent env orig acc u p hp (hne u (List.mem_cons_self u urls)))
      (fun v hv => hne v (List.mem_cons_of_mem u hv))

theorem downloadFile_no_extract (env : Env) (url fp : String) (fs : FS)
    (x : String) : Ev.extract x ∉ (downloadFile env url fp fs).2.2 := by
  rcases downloadFile_cases env url fp fs with hc | hc | hc <;> rw [hc] <;>
    simp

theorem download7zip_no_extract (env : Env) (fs : FS) (x : String) :
    Ev.extract x ∉ (download7zip env fs).2.2 := by
  have h := downloadFile_no_extract env sevenZipUrl "7zr.exe" fs x
  unfold download7zip
  rcases hc : downloadFile env sevenZipUrl "7zr.exe" fs with ⟨ok, fs1, evs⟩
  rw [hc] at h
  cases ok <;> simpa using h

theorem setupCurl_no_extract (env : Env) (fs : FS) {x : String}
    (hne : x ≠ curlZipName) :
    Ev.extract x ∉ (setupCurl env fs).2.2 := by
  rcases hc : setupCurl env fs with ⟨o, fs2, evs⟩
  simp only
  have hdl := downloadFile_no_extract env curlZipUrl curlZipName fs x
  unfold setupCurl at hc
  split at hc
  · injection hc with _ h2
    injection h2 with _ h3
    subst h3
    simp
  · split at hc
    · injection hc with _ h2
      injection h2 with _ h3
      subst h3
      simp
    · split at hc
      · next fs1 evs1 heq =>
        injection hc with _ h2
        injection h2 with _ h3
        subst h3
        rw [heq] at hdl
        exact hdl
      · next fs1 evs1 heq =>
        rw [heq] at hdl
        split at hc
        · dsimp only at hc
          split at hc
          · split at hc
            · injection hc with _ h2
              injection h2 with _ h3
              subst h3
              simp [hdl, hne]
            · injection hc with _ h2
              injection h2 with _ h3
              subst h3
              simp [hdl, hne]
          · injection hc with _ h2
            injection h2 with _ h3
            subst h3
            simp [hdl, hne]
        · injection hc with _ h2
          injection h2 with _ h3
          subst h3
          simp [hdl, hne]

theorem download7zip_some_mem {env : Env} {fs : FS} {r : Option String × FS × List Ev}
    (h : download7zip env fs = r) (hs : r.1.isSome = true) :
    pexists r.2.1 "7zr.exe" = true := by
  unfold download7zip at h
  rcases hd : downloadFile env sevenZipUrl "7zr.exe" fs with ⟨ok, fs1, evs⟩
  rw [hd] at h
  cases ok
  · rw [← h] at hs
    simp at hs
  · rw [← h]
    exact downloadFile_true_mem hd rfl

theorem cleanupExcept_no_bins (fs : FS) :
    pexists (cleanupExcept fs) "7zr.exe" = false ∧
    pexists (cleanupExcept fs) "curl.exe" = false := by
  unfold cleanupExcept
  by_cases h7 : pexists fs "7zr.exe" = true
  · simp [h7]
    by_cases hcu : pexists (rmP fs "7zr.exe") "curl.exe" = true
    · simp [hcu]
      constructor
      · rw [pexists_rmP_of_ne _ (by decide : "7zr.exe" ≠ "curl.exe")]
        exact pexists_rmP_self fs "7zr.exe"
      · exact pexists_rmP_self _ "curl.exe"
    · simp [hcu]
      exact pexists_rmP_self fs "7zr.exe"
  · simp [h7]
    have h7' : pexists fs "7zr.exe" = false := bool_not_eq_true h7
    by_cases hcu : pexists fs "curl.exe" = true
    · simp [hcu]
      constructor
      · rw [pexists_rmP_of_ne _ (by decide : "7zr.exe" ≠ "curl.exe")]
        exact h7'
      · exact pexists_rmP_self _ "curl.exe"
    · simp [hcu]
      exact h7'

theorem cleanupExcept_keeps {fs : FS} {p : String}
    (hp : pexists fs p = true) (h7 : p ≠ "7zr.exe") (hcu : p ≠ "curl.exe") :
    pexists (cleanupExcept fs) p = true := by
  unfold cleanupExcept
  by_cases hb7 : pexists fs "7zr.exe" = true
  · simp [hb7]
    have h1 : pexists (rmP fs "7zr.exe") p = true := by
      rw [pexists_rmP_of_ne _ h7]
      exact hp
    by_cases hbc : pexists (rmP fs "7zr.exe") "curl.exe" = true
    · simp [hbc]
      rw [pexists_rmP_of_ne _ hcu]
      exact h1
    · simp [hbc]
      exact h1
  · simp [hb7]
    by_cases hbc : pexists fs "curl.exe" = true
    · simp [hbc]
      rw [pexists_rmP_of_ne _ hcu]
      exact hp
    · simp [hbc]
      exact hp

theorem cleanupSuccess_spec (n : String) (fs : FS)
    (hn : pexists fs n = true) (h7 : pexists fs "7zr.exe" = true)
    (hne7 : n ≠ "7zr.exe") (hnec : n ≠ "curl.exe") :
    pexists (cleanupSuccess n fs) n = false ∧
    pexists (cleanupSuccess n fs) "7zr.exe" = false ∧
    pexists (cleanupSuccess n fs) "curl.exe" = false := by
  unfold cleanupSuccess
  have h7r : pexists (rmP fs n) "7zr.exe" = true := by
    rw [pexists_rmP_of_ne _ (Ne.symm hne7)]
    exact h7
  simp [hn, h7r]
  by_cases hcu : pexists (rmP (rmP fs n) "7zr.exe") "curl.exe" = true
  · simp [hcu]
    refine ⟨?_, ?_, ?_⟩
    · rw [pexists_rmP_of_ne _ hnec, pexists_rmP_of_ne _ hne7]
      exact pexists_rmP_self fs n
    · rw [pexists_rmP_of_ne _ (by decide : "7zr.exe" ≠ "curl.exe")]
      exact pexists_rmP_self _ "7zr.exe"
    · exact pexists_rmP_self _ "curl.exe"
  · simp [hcu]
    refine ⟨?_, ?_⟩
    · rw [pexists_rmP_of_ne _ hne7]
      exact pexists_rmP_self fs n
    · exact pexists_rmP_self _ "7zr.exe"

theorem modelStep_fs (env : Env) (acc : Nat × FS × List Ev) (m : ModelSpec) :
    (modelStep env acc m).2.1 =
      (downloadFile env m.url (pjoin (resolveDir m) m.filename) acc.2.1).2.1 :=
  rfl

theorem foldl_modelStep_mono (env : Env) (models : List ModelSpec)
    (acc : Nat × FS × List Ev) (p : String) (h : pexists acc.2.1 p = true) :
    pexists (models.foldl (modelStep env) acc).2.1 p = true := by
  induction models generalizing acc with
  | nil => exact h
  | cons m ms ih =>
    apply ih
    rw [modelStep_fs]
    rcases downloadFile_cases env m.url (pjoin (resolveDir m) m.filename)
      acc.2.1 with hc | hc | hc <;> rw [hc]
    · exact h
    · exact pexists_addP_mono _ h
    · exact h

theorem foldl_modelStep_frame (env : Env) (models : List ModelSpec)
    (acc : Nat × FS × List Ev) (p : String)
    (hp : pexists acc.2.1 p = false)
    (hne : ∀ m ∈ models, p ≠ pjoin (resolveDir m) m.filename) :
    pexists (models.foldl (modelStep env) acc).2.1 p = false := by
  induction models generalizing acc with
  | nil => exact hp
  | cons m ms ih =>
    apply ih
    · rw [modelStep_fs]
      exact downloadFile_absent rfl hp (hne m (List.mem_cons_self m ms))
    · exact fun v hv => hne v (List.mem_cons_of_mem m hv)

theorem mkdirModels_has_dirs (fs : FS) :
    pexists (mkdirModels fs) checkpointsDir = true ∧
    pexists (mkdirModels fs) upscaleDir = true := by
  constructor
  · show pexists (addP (addP _ checkpointsDir) upscaleDir)
      checkpointsDir = true
    exact pexists_addP_mono _ (pexists_addP_self _ _)
  · exact pexists_addP_self _ _

theorem mkdirModels_frame {fs : FS} {p : String}
    (hp : pexists fs p = false) (hne : ∀ q ∈ modelDirList, p ≠ q) :
    pexists (mkdirModels fs) p = false := by
  rw [mkdirModels, pexists_addAll_of_ne _ _ hne]
  exact hp

theorem removeA_nil (p : Char) (ps : List Char) (f : Nat) :
    removeA p ps f [] = [] := by
  cases f <;> rfl

theorem isPre_of_stripPre {ps cs rest : List Char}
    (h : stripPre ps cs = some rest) : isPreOf ps cs = true := by
  induction ps generalizing cs with
  | nil => rfl
  | cons p ps ih =>
    cases cs with
    | nil => simp [stripPre] at h
    | cons c cs =>
      unfold stripPre at h
      by_cases hpc : p = c
      · simp only [hpc, beq_self_eq_true, if_true] at h
        unfold isPreOf
        simp [hpc, ih h]
      · simp [hpc] at h

theorem isPreOf_append_of_le {pat y : List Char} (rest : List Char)
    (hlen : pat.length ≤ y.length) :
    isPreOf pat (y ++ rest) = isPreOf pat y := by
  induction pat generalizing y with
  | nil => simp [isPreOf]
  | cons p ps ih =>
    cases y with
    | nil => simp at hlen
    | cons c y =>
      simp only [List.cons_append]
      unfold isPreOf
      rw [ih (Nat.le_of_succ_le_succ (by simpa using hlen))]

theorem occursIn_tail {pat : List Char} {c : Char} {l : List Char}
    (h : occursIn pat (c :: l) = false) : occursIn pat l = false := by
  unfold occursIn at h
  exact (Bool.or_eq_false_iff.mp h).2

theorem removeA_strip (b : List Char) :
    ∀ fuel, occursIn ['.', 'g', 'i', 't'] (b ++ ['.', 'g', 'i']) = false →
    b.length + 4 ≤ fuel →
    removeA '.' ['g', 'i', 't'] fuel (b ++ ['.', 'g', 'i', 't']) = b := by
  induction b with
  | nil =>
    intro fuel hocc hfuel
    obtain ⟨f, rfl⟩ : ∃ f, fuel = f + 1 := ⟨fuel - 1, by omega⟩
    simp only [List.nil_append]
    unfold removeA
    simp [stripPre, removeA_nil]
  | cons c b ih =>
    intro fuel hocc hfuel
    obtain ⟨f, rfl⟩ : ∃ f, fuel = f + 1 := ⟨fuel - 1, by omega⟩
    have hocc' : occursIn ['.', 'g', 'i', 't'] (b ++ ['.', 'g', 'i']) =
        false := occursIn_tail hocc
    have hfuel' : b.length + 4 ≤ f := by
      simp only [List.length_cons] at hfuel
      omega
    simp only [List.cons_append]
    unfold removeA
    by_cases hc : c = '.'
    · subst hc
      cases hsp : stripPre ['g', 'i', 't'] (b ++ ['.', 'g', 'i', 't']) with
      | some rest =>
        exfalso
        have hpre : isPreOf ['.', 'g', 'i', 't']
            ('.' :: (b ++ ['.', 'g', 'i', 't'])) = true := by
          unfold isPreOf
          simp [isPre_of_stripPre hsp]
        have heq : ('.' :: (b ++ ['.', 'g', 'i', 't'])) =
            (('.' :: (b ++ ['.', 'g', 'i'])) ++ ['t']) := by simp
        rw [heq] at hpre
        rw [isPreOf_append_of_le ['t']
          (by simp [List.length_append])] at hpre
        have htrue : occursIn ['.', 'g', 'i', 't']
            ('.' :: (b ++ ['.', 'g', 'i'])) = true := by
          unfold occursIn
          rw [hpre]
          simp
        simp only [List.cons_append] at hocc
        rw [hocc] at htrue
        exact absurd htrue (by simp)
      | none =>
        simp only [hsp, beq_self_eq_true, if_true]
        exact congrArg (List.cons '.') (ih f hocc' hfuel')
    · have hcc : (c == '.') = false := by simp [hc]
      simp only [hcc, Bool.false_eq_true, if_false]
      exact congrArg (List.cons c) (ih f hocc' hfuel')

end Lemmas

/-- Claim C1: the working directory is restored on every exit path of a
single clone attempt (skip, successful clone, failure), and after
`download_custom_nodes` returns the working directory equals its value at
entry. -/
theorem downloadCustomNodes_cwd_restored (env : Env) (urls : List String)
    (st : St) :
    (downloadCustomNodes env urls st).2.cwd = st.cwd ∧
    ∀ acc url, acc.2.cwd = st.cwd →
      (cloneStep env st.cwd acc url).2.cwd = st.cwd := by
  constructor
  · unfold downloadCustomNodes
    rcases hg : setupGit env (mkdirCustomNodes st.fs) with ⟨o, fs1⟩
    dsimp only
    rw [hg]
    cases o with
    | none => rfl
    | some g =>
      dsimp only
      have hcwd := foldl_cloneStep_cwd env st.cwd urls (0, ⟨fs1, st.cwd⟩) rfl
      split
      · exact hcwd
      · exact hcwd
  · intro acc url h
    exact cloneStep_cwd env st.cwd acc url h

theorem downloadCustomNodes_cwd_restored_witness :
    (downloadCustomNodes envAllOk ["https://h/a"] ⟨[], "/work"⟩).2.cwd =
      "/work" ∧
    (cloneStep envAllOk "/work" (0, ⟨[], "/work"⟩) "https://h/a").2.cwd =
      "/work" :=
  ⟨(downloadCustomNodes_cwd_restored envAllOk ["https://h/a"]
      ⟨[], "/work"⟩).1,
    (downloadCustomNodes_cwd_restored envAllOk ["https://h/a"]
      ⟨[], "/work"⟩).2 (0, ⟨[], "/work"⟩) "https://h/a" rfl⟩

/-- Claim C6: in `download_custom_nodes`, with one failing URL among a list
of otherwise succeeding ones, every valid spec is still processed and
counted — the final success count is the number of valid specs, so only the
invalid one is recorded as failed (and the stage reports not-all-succeeded);
moreover a repository whose directory already exists is counted as a
success and skipped without any clone. -/
theorem downloadCustomNodes_isolation (env : Env) (st : St)
    (l1 l2 : List String) (bad : String) (g : String) (fs1 : FS)
    (hg : setupGit env (mkdirCustomNodes st.fs) = (some g, fs1))
    (hval : ∀ u ∈ l1 ++ l2, env.cloneOk u = true)
    (hbad : env.cloneOk bad = false)
    (hnot : pexists fs1 (pjoin customNodesDir (repoName bad)) = false)
    (hname : ∀ u ∈ l1, repoName u ≠ repoName bad) :
    (((l1 ++ bad :: l2).foldl (cloneStep env st.cwd)
        (0, ⟨fs1, st.cwd⟩)).1 = l1.length + l2.length) ∧
    (downloadCustomNodes env (l1 ++ bad :: l2) st).1 = false ∧
    (∀ acc url,
      pexists acc.2.fs (pjoin customNodesDir (repoName url)) = true →
      cloneStep env st.cwd acc url = (acc.1 + 1, acc.2)) := by
  have h1 := foldl_cloneStep_count env st.cwd l1 (0, ⟨fs1, st.cwd⟩)
    (fun u hu => hval u (List.mem_append_left l2 hu))
  have habs : pexists (l1.foldl (cloneStep env st.cwd)
      (0, ⟨fs1, st.cwd⟩)).2.fs (pjoin customNodesDir (repoName bad)) =
      false := by
    apply foldl_cloneStep_absent
    · exact hnot
    · intro u hu heq
      exact hname u hu (pjoin_right_inj heq).symm
  have hcount : ((l1 ++ bad :: l2).foldl (cloneStep env st.cwd)
      (0, ⟨fs1, st.cwd⟩)).1 = l1.length + l2.length := by
    rw [List.foldl_append, List.foldl_cons,
      cloneStep_fail env st.cwd _ bad habs hbad,
      foldl_cloneStep_count env st.cwd l2 _
        (fun u hu => hval u (List.mem_append_right l1 hu))]
    simp at h1 ⊢
    omega
  refine ⟨hcount, ?_, ?_⟩
  · unfold downloadCustomNodes
    dsimp only
    rw [hg]
    dsimp only
    rw [hcount, beq_eq_false_iff_ne]
    simp [List.length_append, List.length_cons]
  · intro acc url h
    exact cloneStep_skip env st.cwd acc url h

theorem downloadCustomNodes_isolation_witness :
    setupGit envIsol
        (mkdirCustomNodes ([] : FS)) = (some "git", mkdirCustomNodes []) ∧
    ((["https://h/a"] ++ "https://h/c" :: ["https://h/b"]).foldl
      (cloneStep envIsol "/w")
      (0, ⟨mkdirCustomNodes [], "/w"⟩)).1 = 2 ∧
    (downloadCustomNodes envIsol
      (["https://h/a"] ++ "https://h/c" :: ["https://h/b"])
      ⟨[], "/w"⟩).1 = false := by
  refine ⟨by decide, ?_, ?_⟩
  · have := downloadCustomNodes_isolation envIsol ⟨[], "/w"⟩
      ["https://h/a"] ["https://h/b"] "https://h/c" "git"
      (mkdirCustomNodes []) (by decide) (by decide) (by decide) (by decide)
      (by decide)
    exact this.1
  · have := downloadCustomNodes_isolation envIsol ⟨[], "/w"⟩
      ["https://h/a"] ["https://h/b"] "https://h/c" "git"
      (mkdirCustomNodes []) (by decide) (by decide) (by decide) (by decide)
      (by decide)
    exact this.2.1

/-- Claim C5: for every url and destination path, if the destination already
exists then `download_file` returns success immediately, performs no network
access (no events) and leaves the filesystem — in particular the existing
file — unchanged. -/
theorem downloadFile_skip_existing (env : Env) (url fp : String) (fs : FS)
    (h : pexists fs fp = true) :
    downloadFile env url fp fs = (true, fs, []) := by
  unfold downloadFile
  simp [h]

theorem downloadFile_skip_existing_witness :
    pexists ["model.bin"] "model.bin" = true ∧
    downloadFile envAllOk "http://u" "model.bin" ["model.bin"] =
      (true, ["model.bin"], []) :=
  ⟨by decide, downloadFile_skip_existing envAllOk "http://u" "model.bin"
    ["model.bin"] (by decide)⟩

/-- Claim C9: when tool acquisition fails in `setup_curl` or `setup_git`,
no partial cache entry remains that a later run's existence check
(`curl.exe` in the current directory, `git_portable/bin/git.exe`) would
mistake for a successful acquisition. -/
theorem setupTools_fail_no_stale_cache (env : Env) (fs : FS) :
    ((setupCurl env fs).1 = none →
      pexists (setupCurl env fs).2.1 "curl.exe" = false) ∧
    ((setupGit env fs).1 = none →
      pexists (setupGit env fs).2 gitPortableBin = false) :=
  ⟨setupCurl_none_no_cache env fs, setupGit_none_no_cache env fs⟩

theorem setupTools_fail_no_stale_cache_witness :
    (setupCurl envAllFail []).1 = none ∧
    (setupGit envAllFail []).1 = none ∧
    pexists (setupCurl envAllFail []).2.1 "curl.exe" = false ∧
    pexists (setupGit envAllFail []).2 gitPortableBin = false :=
  ⟨by decide, by decide,
    (setupTools_fail_no_stale_cache envAllFail []).1 (by decide),
    (setupTools_fail_no_stale_cache envAllFail []).2 (by decide)⟩

/-- Claim C2: `main` terminates with a non-zero exit code exactly when the
main-application installation stage fails, in which case it terminates
before the custom-node or model stage executes (the final state is exactly
the install stage's state); when installation succeeds, both later stages
run and the exit code is 0 regardless of their outcomes. -/
theorem mainRun_exit_policy (env : Env) (st : St) :
    ((mainRun env st).1 = 0 ↔ (installComfyui env st.fs).1 = true) ∧
    ((mainRun env st).1 ≠ 0 ↔ (installComfyui env st.fs).1 = false) ∧
    ((mainRun env st).2.1 = (installComfyui env st.fs).1) ∧
    ((mainRun env st).2.2.1 = (installComfyui env st.fs).1) ∧
    ((installComfyui env st.fs).1 = false →
      (mainRun env st).2.2.2 = ⟨(installComfyui env st.fs).2.1, st.cwd⟩) := by
  unfold mainRun
  cases hi : (installComfyui env st.fs).1 <;> simp [hi]

theorem mainRun_exit_policy_witness :
    (installComfyui envAllFail ([] : FS)).1 = false ∧
    (mainRun envAllFail ⟨[], "/w"⟩).2.2.2 =
      ⟨(installComfyui envAllFail ([] : FS)).2.1, "/w"⟩ :=
  ⟨by decide,
    (mainRun_exit_policy envAllFail ⟨[], "/w"⟩).2.2.2.2 (by decide)⟩

/-- Claim C3: when the fetched main archive is smaller than the 1048576-byte
threshold, `install_comfyui` deletes the file, reports failure, and never
invokes the extractor on it. -/
theorem installComfyui_size_gate (env : Env) (fs : FS)
    (assets : List (String × String)) (n u : String)
    (h0 : pexists fs "ComfyUI_windows_portable" = false)
    (hc : (setupCurl env fs).1.isSome = true)
    (h3 : env.comfyApi = some assets)
    (h4 : findSevenZ assets = some (n, u))
    (h5 : env.fetchOk u = true)
    (h6 : env.sizeOf n < minArchiveSize)
    (hz : (download7zip env (setupCurl env fs).2.1).1 = some "7zr.exe") :
    (installComfyui env fs).1 = false ∧
    pexists (installComfyui env fs).2.1 n = false ∧
    Ev.extract n ∉ (installComfyui env fs).2.2 := by
  have hsuf : isSufOf ['.', '7', 'z'] n.data = true := by
    unfold findSevenZ at h4
    have h := List.find?_some h4
    simpa using h
  have hnez : n ≠ curlZipName := by
    intro he
    rw [he] at hsuf
    exact absurd hsuf (by decide)
  have hnoc := setupCurl_no_extract env fs hnez
  rcases hsc : setupCurl env fs with ⟨oc, fsc, evsc⟩
  rw [hsc] at hc hz hnoc
  simp only at hc hz hnoc
  cases oc with
  | none => simp at hc
  | some c =>
  rcases hdz : download7zip env fsc with ⟨oz, fsz, evsz⟩
  rw [hdz] at hz
  simp only at hz
  subst hz
  have hnoz : Ev.extract n ∉ evsz := by
    have h := download7zip_no_extract env fsc n
    rw [hdz] at h
    exact h
  refine ⟨?_, ?_, ?_⟩ <;>
    simp [installComfyui, h0, hsc, hdz, h3, h4, h5, h6, pexists_rmP_self,
      hnoc, hnoz]

theorem installComfyui_size_gate_witness :
    (installComfyui envTinyFresh []).1 = false ∧
    pexists (installComfyui envTinyFresh []).2.1 "ComfyUI-1.7z" = false ∧
    Ev.extract "ComfyUI-1.7z" ∉ (installComfyui envTinyFresh []).2.2 :=
  installComfyui_size_gate envTinyFresh []
    [("ComfyUI-1.7z", "http://a/c.7z")] "ComfyUI-1.7z" "http://a/c.7z"
    (by decide) (by decide) rfl (by decide) (by decide) (by decide)
    (by decide)

/-- Claim C4 counterexample: on the early-return failure path where the
release metadata holds no ".7z" asset, `install_comfyui` returns failure
while leaving both the freshly downloaded `curl.exe` and `7zr.exe` on disk,
so the transient files are not removed on every exit path. -/
theorem installComfyui_cleanup_cex :
    (installComfyui envNoAsset []).1 = false ∧
    pexists (installComfyui envNoAsset []).2.1 "curl.exe" = true ∧
    pexists (installComfyui envNoAsset []).2.1 "7zr.exe" = true := by
  decide

/-- Claim C4 (amended): `install_comfyui` removes the transient files on the
success path (archive, `7zr.exe`, and `curl.exe` when present) and on the
exception-handling failure path it removes `7zr.exe` and `curl.exe` but
leaves the downloaded archive; the cleanup is best-effort and never changes
the stage outcome.  (The early-return failure paths perform no such
cleanup; see the counterexample.) -/
theorem installComfyui_cleanup_paths (env : Env) (fs : FS)
    (assets : List (String × String)) (n u : String)
    (h0 : pexists fs "ComfyUI_windows_portable" = false)
    (hc : (setupCurl env fs).1.isSome = true)
    (hz : (download7zip env (setupCurl env fs).2.1).1 = some "7zr.exe")
    (h3 : env.comfyApi = some assets)
    (h4 : findSevenZ assets = some (n, u))
    (h5 : env.fetchOk u = true)
    (h6 : minArchiveSize ≤ env.sizeOf n) :
    (env.extract7zOk = true →
      (installComfyui env fs).1 = true ∧
      pexists (installComfyui env fs).2.1 n = false ∧
      pexists (installComfyui env fs).2.1 "7zr.exe" = false ∧
      pexists (installComfyui env fs).2.1 "curl.exe" = false) ∧
    (env.extract7zOk = false →
      (installComfyui env fs).1 = false ∧
      pexists (installComfyui env fs).2.1 n = true ∧
      pexists (installComfyui env fs).2.1 "7zr.exe" = false ∧
      pexists (installComfyui env fs).2.1 "curl.exe" = false) := by
  rcases hsc : setupCurl env fs with ⟨oc, fsc, evsc⟩
  rw [hsc] at hc hz
  simp only at hc hz
  cases oc with
  | none => simp at hc
  | some c =>
  rcases hdz : download7zip env fsc with ⟨oz, fsz, evsz⟩
  rw [hdz] at hz
  simp only at hz
  subst hz
  have h7mem : pexists fsz "7zr.exe" = true := by
    have := download7zip_some_mem hdz (by simp)
    simpa using this
  have hsuf : isSufOf ['.', '7', 'z'] n.data = true := by
    unfold findSevenZ at h4
    have h := List.find?_some h4
    simpa using h
  have hne7 : n ≠ "7zr.exe" := by
    intro he
    rw [he] at hsuf
    exact absurd hsuf (by decide)
  have hnec : n ≠ "curl.exe" := by
    intro he
    rw [he] at hsuf
    exact absurd hsuf (by decide)
  have h6' : ¬ (env.sizeOf n < minArchiveSize) := Nat.not_lt.mpr h6
  constructor
  · intro hex
    have hBn : pexists (addP (addP fsz n) "ComfyUI_windows_portable") n =
        true := pexists_addP_mono _ (pexists_addP_self fsz n)
    have h7B : pexists (addP (addP fsz n) "ComfyUI_windows_portable")
        "7zr.exe" = true :=
      pexists_addP_mono _ (pexists_addP_mono _ h7mem)
    have hB := cleanupSuccess_spec n
      (addP (addP fsz n) "ComfyUI_windows_portable") hBn h7B hne7 hnec
    refine ⟨?_, ?_, ?_, ?_⟩ <;>
      simp [installComfyui, h0, hsc, hdz, h3, h4, h5, h6', hex, hB.1,
        hB.2.1, hB.2.2]
  · intro hex
    have hA := cleanupExcept_no_bins (addP fsz n)
    have hAn : pexists (cleanupExcept (addP fsz n)) n = true :=
      cleanupExcept_keeps (pexists_addP_self fsz n) hne7 hnec
    refine ⟨?_, ?_, ?_, ?_⟩ <;>
      simp [installComfyui, h0, hsc, hdz, h3, h4, h5, h6', hex, hA.1, hA.2,
        hAn]

theorem installComfyui_cleanup_paths_witness :
    envAllOk.extract7zOk = true ∧
    (installComfyui envAllOk []).1 = true ∧
    pexists (installComfyui envAllOk []).2.1 "ComfyUI-1.7z" = false ∧
    pexists (installComfyui envAllOk []).2.1 "7zr.exe" = false ∧
    pexists (installComfyui envAllOk []).2.1 "curl.exe" = false :=
  ⟨by decide,
    (installComfyui_cleanup_paths envAllOk []
      [("ComfyUI-1.7z", "http://a/c.7z")] "ComfyUI-1.7z" "http://a/c.7z"
      (by decide) (by decide) (by decide) rfl (by decide) (by decide)
      (by decide)).1 (by decide)⟩

/-- Claim C7 counterexample: for an asset spec with the unmapped category
"extradir", `download_models` delegates the download (a network access
occurs) even though the literal destination directory is never created, so
the resolved directory is not ensured to exist before delegation. -/
theorem downloadModels_literal_dir_cex :
    Ev.net "http://x/u" ∈
      (downloadModelsRun envAllOk []
        [⟨"http://x/u", "f.bin", "extradir"⟩]).2.2 ∧
    pexists (downloadModelsRun envAllOk []
        [⟨"http://x/u", "f.bin", "extradir"⟩]).2.1 "extradir" = false := by
  decide

/-- Claim C7 (amended): each asset spec's destination directory is the
mapped physical directory when the category is a known key and the raw
category string used as a literal path otherwise (not rejected — the
download is delegated either way); the two known category directories are
created at stage start, but the stage creates nothing else besides the
delegated files, so an unmapped literal directory is not ensured to
exist. -/
theorem downloadModels_dirs (env : Env) (fs : FS)
    (models : List ModelSpec) :
    pexists (downloadModelsRun env fs models).2.1 checkpointsDir = true ∧
    pexists (downloadModelsRun env fs models).2.1 upscaleDir = true ∧
    (∀ m ∈ models, m.directory ≠ "checkpoints_dir" →
      m.directory ≠ "upscale_dir" → resolveDir m = m.directory) ∧
    (∀ p, pexists fs p = false → (∀ q ∈ modelDirList, p ≠ q) →
      (∀ m ∈ models, p ≠ pjoin (resolveDir m) m.filename) →
      pexists (downloadModelsRun env fs models).2.1 p = false) := by
  refine ⟨?_, ?_, ?_, ?_⟩
  · exact foldl_modelStep_mono env models _ _ (mkdirModels_has_dirs fs).1
  · exact foldl_modelStep_mono env models _ _ (mkdirModels_has_dirs fs).2
  · intro m _ h1 h2
    unfold resolveDir
    simp [h1, h2]
  · intro p hp hmk hmods
    exact foldl_modelStep_frame env models _ p (mkdirModels_frame hp hmk)
      hmods

theorem downloadModels_dirs_witness :
    pexists (downloadModelsRun envAllOk []
      [⟨"http://x/u", "f.bin", "somedir"⟩]).2.1 checkpointsDir = true ∧
    resolveDir ⟨"http://x/u", "f.bin", "somedir"⟩ = "somedir" ∧
    pexists (downloadModelsRun envAllOk []
      [⟨"http://x/u", "f.bin", "somedir"⟩]).2.1 "other" = false :=
  ⟨(downloadModels_dirs envAllOk [] [⟨"http://x/u", "f.bin", "somedir"⟩]).1,
    (downloadModels_dirs envAllOk []
      [⟨"http://x/u", "f.bin", "somedir"⟩]).2.2.1
      ⟨"http://x/u", "f.bin", "somedir"⟩ (by decide) (by decide) (by decide),
    (downloadModels_dirs envAllOk []
      [⟨"http://x/u", "f.bin", "somedir"⟩]).2.2.2
      "other" (by decide) (by decide) (by decide)⟩

/-- Claim C8 counterexample: for the URL "https://e.com/a.github.io" the
code derives "ahub.io" (an interior ".git" occurrence is removed), while
stripping a version-control suffix from the final segment — which has no
such suffix — yields "a.github.io"; so the name is not the final segment
with only a trailing ".git" stripped. -/
theorem repoName_claim_cex :
    ¬ (repoName "https://e.com/a.github.io" =
        specDerivedName "https://e.com/a.github.io" ∧
      repoName "https://e.com/a.github.io" ≠ "") := by
  decide

/-- Claim C8 (amended): the derivation removes every occurrence of ".git"
in the final path segment — not only a trailing suffix — and the result can
be empty (e.g. a URL ending in '/'); when the segment ends in ".git" and
contains no other (even overlapping) occurrence, the derived name does
equal the segment with the suffix stripped. -/
theorem repoName_strip_suffix (u b : String)
    (h1 : lastSeg u.data = b.data ++ ['.', 'g', 'i', 't'])
    (h2 : occursIn ['.', 'g', 'i', 't']
      (b.data ++ ['.', 'g', 'i']) = false) :
    repoName u = b := by
  unfold repoName removeAll
  rw [h1]
  rw [removeA_strip b.data _ h2 (by simp [List.length_append])]

theorem repoName_strip_suffix_witness :
    lastSeg "https://github.com/ltdrdata/ComfyUI-Manager.git".data =
      "ComfyUI-Manager".data ++ ['.', 'g', 'i', 't'] ∧
    repoName "https://github.com/ltdrdata/ComfyUI-Manager.git" =
      "ComfyUI-Manager" :=
  ⟨by decide,
    repoName_strip_suffix "https://github.com/ltdrdata/ComfyUI-Manager.git"
      "ComfyUI-Manager" (by decide) (by decide)⟩

/-- Claim C10 counterexample: with an empty spec list,
`download_custom_nodes` still returns False when git setup fails (no
system git, release API unreachable), although the success count (0)
equals the number of specs (0); so the empty configuration does not make
the stage succeed vacuously. -/
theorem downloadCustomNodes_empty_cex :
    ¬ ((downloadCustomNodes envGitFail [] ⟨[], "/w"⟩).1 = true) := by
  decide

/-- Claim C10 (amended): `download_models` returns True exactly when the
success count equals the number of specs, and for an empty list it performs
no downloads (no events) and returns True; `download_custom_nodes` returns
True exactly when git setup succeeds and the success count equals the
number of specs — for an empty list it returns True if and only if git
setup succeeds (git setup may itself download). -/
theorem stage_success_counts (env : Env) (st : St) (fs : FS)
    (models : List ModelSpec) (urls : List String) :
    ((downloadModels env fs models).1 = true ↔
      (downloadModelsRun env fs models).1 = models.length) ∧
    (downloadModels env fs [] = (true, mkdirModels fs, [])) ∧
    ((downloadCustomNodes env urls st).1 = true ↔
      ((setupGit env (mkdirCustomNodes st.fs)).1.isSome = true ∧
        (urls.foldl (cloneStep env st.cwd)
          (0, ⟨(setupGit env (mkdirCustomNodes st.fs)).2, st.cwd⟩)).1 =
          urls.length)) ∧
    ((setupGit env (mkdirCustomNodes st.fs)).1.isSome = true →
      (downloadCustomNodes env [] st).1 = true) := by
  refine ⟨?_, rfl, ?_, ?_⟩
  · unfold downloadModels
    dsimp only
    exact beq_iff_eq
  · unfold downloadCustomNodes
    dsimp only
    rcases hg : setupGit env (mkdirCustomNodes st.fs) with ⟨o, fs1⟩
    cases o with
    | none => simp
    | some g =>
      dsimp only
      simp [beq_iff_eq]
  · intro h
    unfold downloadCustomNodes
    dsimp only
    rcases hg : setupGit env (mkdirCustomNodes st.fs) with ⟨o, fs1⟩
    rw [hg] at h
    cases o with
    | none => simp at h
    | some g => simp

theorem stage_success_counts_witness :
    (downloadModels envAllOk [] [] = (true, mkdirModels [], [])) ∧
    ((setupGit envAllOk (mkdirCustomNodes ([] : FS))).1.isSome = true) ∧
    (downloadCustomNodes envAllOk [] ⟨[], "/w"⟩).1 = true :=
  ⟨(stage_success_counts envAllOk ⟨[], "/w"⟩ [] [] []).2.1,
    by decide,
    (stage_success_counts envAllOk ⟨[], "/w"⟩ [] [] []).2.2.2 (by decide)⟩

end OneRun
